import Mathlib

/-!
Shallow embedding of the policy-training coordination subsystem of `maro`
(`src/maro/rl/training/policy_manager/policy_manager.py`), together with the
pieces of the trainable-policy capability and the trainer worker that the
repository snapshot does not show (those are modelled from the specification
and marked as such).

Conventions:
* Python `dict` is an association list with Python semantics: assignment
  replaces in place (keeping insertion order) or appends at the end.
* Python `set` (of strings) is a duplicate-free list; `setAdd` mirrors
  `set.add`.
* Exceptions are surfaced as an `Option PyError` / `Except PyError` result;
  mutations performed before a raise persist, as they do on a Python object.
* Policy state and experience sets are opaque; both are embedded as `Nat`.
-/

namespace Maro

/-- Kinds of exception relevant to the coordination core. `valueError` and
`keyError` are the ones the embedded code can actually raise;
`configurationError` is the error class named by the specification's error
taxonomy (§7) and is never produced by the code. -/
inductive PyError where
  | valueError
  | keyError (key : String)
  | configurationError
deriving DecidableEq, Repr

/-- Modelled from the spec: the trainable-policy capability (spec §6:
`get_state() -> state`, `set_state(state) -> void`,
`on_experiences(ExperienceSet) -> bool`, true iff internal state changed).
The repository snapshot's `policy.py` does not contain `on_experiences` or
`name`; the state is the serializable blob (`Nat` here) and `update` is the
experience-driven update returning the new state and the changed flag. -/
structure CorePolicy where
  name : String
  state : Nat
  update : Nat → Nat → Nat × Bool

/-- A policy supplied to a manager: either a trainable (`AbsCorePolicy`)
instance or a non-trainable `AbsPolicy` (e.g. `NullPolicy`). -/
inductive Policy where
  | core (p : CorePolicy)
  | nonCore (name : String)

/-- `isinstance(policy, AbsCorePolicy)` as a Lean projection. -/
def Policy.asCore : Policy → Option CorePolicy
  | .core p => some p
  | .nonCore _ => none

def Policy.isCore (p : Policy) : Bool :=
  (p.asCore).isSome

/-- Python dict assignment `d[k] = v`: replace in place if the key exists
(keeping its position), otherwise append at the end. -/
def dictSet {α : Type} : List (String × α) → String → α → List (String × α)
  | [], k, v => [(k, v)]
  | kv :: rest, k, v => if kv.1 = k then (k, v) :: rest else kv :: dictSet rest k v

/-- Python dict lookup `d.get(k)`. -/
def dictGet? {α : Type} : List (String × α) → String → Option α
  | [], _ => none
  | kv :: rest, k => if kv.1 = k then some kv.2 else dictGet? rest k

/-- Python `d[k]`, raising `KeyError` when the key is absent. -/
def lookupOrKeyError {α : Type} (d : List (String × α)) (k : String) : Except PyError α :=
  match dictGet? d k with
  | some v => .ok v
  | none => .error (.keyError k)

/-- Python `d.keys()`. -/
def dictKeys {α : Type} (d : List (String × α)) : List String :=
  d.map Prod.fst

/-- Python `set.add` on a duplicate-free list. -/
def setAdd (s : List String) (x : String) : List String :=
  if x ∈ s then s else s ++ [x]

/-- The state shared by all policy managers (`AbsPolicyManager`):
`policy_dict` (canonical policy store), `updated` (set of names touched since
the last reset) and `_version`. -/
structure ManagerState where
  policy_dict : List (String × CorePolicy)
  updated : List String
  version : Nat

/-- The validation loop of `AbsPolicyManager.__init__`: walk the supplied
policies in order and fail at the first one that is not an `AbsCorePolicy`. -/
def coresOf : List Policy → Option (List CorePolicy)
  | [] => some []
  | p :: rest =>
    match p.asCore with
    | none => none
    | some cp => (coresOf rest).map (fun l => cp :: l)

/-- `AbsPolicyManager.__init__`: first the loop raising `ValueError` at the
first supplied policy that is not an `AbsCorePolicy`, then
`policy_dict = {policy.name: policy for policy in policies}`,
`updated = set(policy_dict.keys())` and `_version = 0`. -/
def mkManager (policies : List Policy) : Except PyError ManagerState :=
  match coresOf policies with
  | none => .error .valueError
  | some cores =>
    let d := cores.foldl (fun d p => dictSet d p.name p) []
    .ok { policy_dict := d, updated := dictKeys d, version := 0 }

/-- `AbsPolicyManager.reset_update_status`: `self.updated.clear()`. -/
def resetUpdateStatus (m : ManagerState) : ManagerState :=
  { m with updated := [] }

/-- The comprehension `{name: self.policy_dict[name].get_state() for name in
names}`; raises `KeyError` at the first name absent from the store. -/
def getStates (d : List (String × CorePolicy)) :
    List String → Except PyError (List (String × Nat))
  | [] => .ok []
  | n :: rest =>
    match dictGet? d n with
    | none => .error (.keyError n)
    | some p => (getStates d rest).map (fun l => (n, p.state) :: l)

/-- `AbsPolicyManager.get_state`: the state snapshot restricted to `updated`. -/
def getState (m : ManagerState) : Except PyError (List (String × Nat)) :=
  getStates m.policy_dict m.updated

/-- `LocalPolicyManager.on_experiences`: iterate the batch in input order;
`self.policy_dict[policy_name]` raises `KeyError` on an unmanaged key
(mutations made by earlier iterations persist); the `isinstance` test is
always true because construction admits only core policies; a policy whose
`on_experiences` returns true is added to `updated`. `_version` is not
touched. -/
def localOnExperiences : ManagerState → List (String × Nat) → ManagerState × Option PyError
  | m, [] => (m, none)
  | m, ne :: rest =>
    match dictGet? m.policy_dict ne.1 with
    | none => (m, some (.keyError ne.1))
    | some p =>
      let r := p.update p.state ne.2
      localOnExperiences
        { m with
          policy_dict := dictSet m.policy_dict ne.1 { p with state := r.1 },
          updated := if r.2 then setAdd m.updated ne.1 else m.updated }
        rest

/-- The `defaultdict(list)` loop turning `policy2trainer` into
`_trainer2policies`: trainer ids appear in first-assignment order, each owning
its policies in assignment order. -/
def buildTrainer2Policies (p2t : List (String × String)) : List (String × List String) :=
  p2t.foldl (fun acc pt => dictSet acc pt.2 (((dictGet? acc pt.2).getD []) ++ [pt.1])) []

/-- The comprehension collecting a trainer's replica policies keyed by name
from the canonical store (the initial states handed to a trainer at start-up);
`KeyError` at the first owned name that is not a managed policy. -/
def replicaFor (d : List (String × CorePolicy)) :
    List String → Except PyError (List (String × CorePolicy))
  | [] => .ok []
  | n :: rest =>
    match dictGet? d n with
    | none => .error (.keyError n)
    | some p => (replicaFor d rest).map (fun l => (n, p) :: l)

/-- Merging one `{policy-id: new-state}` reply entry into the coordinator:
`self.policy_dict[policy_name].set_state(policy_state)` followed by
`self.updated.add(policy_name)`. The store update is a no-op for a name not
in the store; reply names always are, since they come from the assignment
table validated at construction. -/
def mergeEntry (b : ManagerState) (ns : String × Nat) : ManagerState :=
  { b with
    policy_dict :=
      b.policy_dict.map (fun kv => if kv.1 = ns.1 then (kv.1, { kv.2 with state := ns.2 }) else kv),
    updated := setAdd b.updated ns.1 }

/-- Merging one trainer's full reply map, entry by entry. -/
def mergeReply (b : ManagerState) (reply : List (String × Nat)) : ManagerState :=
  reply.foldl mergeEntry b

/-- The tail of both distributed `on_experiences` variants:
`if self.updated: self._version += 1`. -/
def bumpVersion (b : ManagerState) : ManagerState :=
  if b.updated.isEmpty then b else { b with version := b.version + 1 }

/-- Modelled from the spec: a trainer worker handling one `TRAIN` command
(`trainer.py` is absent from the snapshot; spec §4.5). For each policy id in
the command it applies the attached experiences to its replica; the reply maps
exactly the policies that reported a change to their new state. -/
def trainerHandleTrain (replica : List (String × CorePolicy)) :
    List (String × Nat) → List (String × CorePolicy) × List (String × Nat)
  | [] => (replica, [])
  | ne :: rest =>
    match dictGet? replica ne.1 with
    | none => trainerHandleTrain replica rest
    | some p =>
      let r := p.update p.state ne.2
      let step := trainerHandleTrain (dictSet replica ne.1 { p with state := r.1 }) rest
      (step.1, if r.2 then (ne.1, r.1) :: step.2 else step.2)

/-- The run of every trainer contacted in one distributed call: each contacted
trainer applies its partition to its replica and produces a reply. -/
def trainResults (replicas : List (String × List (String × CorePolicy)))
    (partitions : List (String × List (String × Nat))) :
    List (String × (List (String × CorePolicy) × List (String × Nat))) :=
  partitions.map (fun tp => (tp.1, trainerHandleTrain ((dictGet? replicas tp.1).getD []) tp.2))

/-- Folding one call's trainer replies into the coordinator state, in the
order the trainers are polled. -/
def mergeResults (b : ManagerState)
    (results : List (String × (List (String × CorePolicy) × List (String × Nat)))) :
    ManagerState :=
  results.foldl (fun b tr => mergeReply b tr.2.2) b

/-- Writing each contacted trainer's post-call replica back into the replica
table. -/
def updateReplicas (replicas : List (String × List (String × CorePolicy)))
    (results : List (String × (List (String × CorePolicy) × List (String × Nat)))) :
    List (String × List (String × CorePolicy)) :=
  results.foldl (fun acc tr => dictSet acc tr.1 tr.2.1) replicas

/-- `MultiProcessPolicyManager` state: the shared base plus
`_trainer2policies`, the trainer processes' policy replicas, and the ids of
the processes that were started. -/
structure MPManager where
  base : ManagerState
  trainer2policies : List (String × List String)
  replicas : List (String × List (String × CorePolicy))
  started : List String

/-- The comprehension `{name: exp_by_policy[name] for name in
self._trainer2policies[trainer_id]}`: `KeyError` at the first owned name
absent from the batch; keys of the batch owned by no trainer are never read. -/
def partitionFor (batch : List (String × Nat)) :
    List String → Except PyError (List (String × Nat))
  | [] => .ok []
  | n :: rest =>
    match dictGet? batch n with
    | none => .error (.keyError n)
    | some e => (partitionFor batch rest).map (fun l => (n, e) :: l)

/-- The Multi-Process send loop's payloads: one `TRAIN` partition per trainer,
for every trainer, in `_manager_end` (= `_trainer2policies`) order. -/
def mpPartition (t2p : List (String × List String)) (batch : List (String × Nat)) :
    Except PyError (List (String × List (String × Nat))) :=
  match t2p with
  | [] => .ok []
  | tp :: rest =>
    match partitionFor batch tp.2 with
    | .error e => .error e
    | .ok part => (mpPartition rest batch).map (fun l => (tp.1, part) :: l)

/-- `MultiProcessPolicyManager.on_experiences`: build and send a partition to
every trainer (a `KeyError` while building leaves `updated`/`version`
untouched), block for all replies, merge them, then bump the version if
`updated` is non-empty. -/
def mpOnExperiences (m : MPManager) (batch : List (String × Nat)) : MPManager × Option PyError :=
  match mpPartition m.trainer2policies batch with
  | .error e => (m, some e)
  | .ok partitions =>
    let results := trainResults m.replicas partitions
    ({ m with
       base := bumpVersion (mergeResults m.base results),
       replicas := updateReplicas m.replicas results }, none)

/-- The per-trainer spawn loop of `MultiProcessPolicyManager.__init__`: for
each trainer id, collect its replica (a `KeyError` aborts construction, with
the earlier processes already started and left behind), then start the
process. The factory dictionary only rebuilds the same policies inside the
child, so the replica is seeded from the canonical store. -/
def mpSpawn (base : ManagerState) (t2p : List (String × List String)) :
    List (String × List String) → List String → List (String × List (String × CorePolicy)) →
    Except PyError MPManager × List String
  | [], started, replicas =>
    (.ok { base := base, trainer2policies := t2p, replicas := replicas, started := started },
     started)
  | tp :: rest, started, replicas =>
    match replicaFor base.policy_dict tp.2 with
    | .error e => (.error e, started)
    | .ok rep => mpSpawn base t2p rest (started ++ [tp.1]) (replicas ++ [(tp.1, rep)])

/-- `MultiProcessPolicyManager.__init__`: the base construction (raising
`ValueError` on a non-core policy before anything is spawned), then the
trainer spawn loop. The second component lists the trainer processes started,
also on a failed construction. -/
def mkMultiProcessManager (policies : List Policy) (p2t : List (String × String)) :
    Except PyError MPManager × List String :=
  match mkManager policies with
  | .error e => (.error e, [])
  | .ok base =>
    let t2p := buildTrainer2Policies p2t
    mpSpawn base t2p t2p [] []

/-- `MultiNodePolicyManager` state: the shared base, the assignment table and
its inverse, and the remote trainers' replicas (seeded through
`INIT_POLICY_STATE`). -/
structure MNManager where
  base : ManagerState
  policy2trainer : List (String × String)
  trainer2policies : List (String × List String)
  replicas : List (String × List (String × CorePolicy))

/-- The `INIT_POLICY_STATE` loop of `MultiNodePolicyManager.__init__`: each
trainer's owned-policy states are read from the canonical store (`KeyError`
if the assignment references an unmanaged policy) and pushed to the peer,
which seeds its replica with them (peer side modelled from the spec, §4.4). -/
def mnInitReplicas (d : List (String × CorePolicy)) :
    List (String × List String) → Except PyError (List (String × List (String × CorePolicy)))
  | [] => .ok []
  | tp :: rest =>
    match replicaFor d tp.2 with
    | .error e => .error e
    | .ok rep => (mnInitReplicas d rest).map (fun l => (tp.1, rep) :: l)

/-- `MultiNodePolicyManager.__init__`: base construction (raising
`ValueError` on a non-core policy before the proxy exists), then proxy
creation, then the initial state push. The second component records whether
the network proxy was created. -/
def mkMultiNodeManager (policies : List Policy) (p2t : List (String × String)) :
    Except PyError MNManager × Bool :=
  match mkManager policies with
  | .error e => (.error e, false)
  | .ok base =>
    let t2p := buildTrainer2Policies p2t
    match mnInitReplicas base.policy_dict t2p with
    | .error e => (.error e, true)
    | .ok replicas =>
      (.ok { base := base, policy2trainer := p2t, trainer2policies := t2p, replicas := replicas },
       true)

/-- The `msg_body_by_dest` loop of `MultiNodePolicyManager.on_experiences`:
walk the batch in input order, look each policy's trainer up in
`policy2trainer` (`KeyError` on an unassigned key, with the manager state
untouched), and group the experiences per destination trainer. -/
def mnPartitionAux (p2t : List (String × String)) :
    List (String × Nat) → List (String × List (String × Nat)) →
    Except PyError (List (String × List (String × Nat)))
  | [], acc => .ok acc
  | ne :: rest, acc =>
    match dictGet? p2t ne.1 with
    | none => .error (.keyError ne.1)
    | some tid =>
      mnPartitionAux p2t rest (dictSet acc tid (dictSet ((dictGet? acc tid).getD []) ne.1 ne.2))

def mnPartition (p2t : List (String × String)) (batch : List (String × Nat)) :
    Except PyError (List (String × List (String × Nat))) :=
  mnPartitionAux p2t batch []

/-- `MultiNodePolicyManager.on_experiences`: partition the batch by
destination trainer, scatter `TRAIN` over exactly those destinations, merge
all replies, then bump the version if `updated` is non-empty. -/
def mnOnExperiences (m : MNManager) (batch : List (String × Nat)) : MNManager × Option PyError :=
  match mnPartition m.policy2trainer batch with
  | .error e => (m, some e)
  | .ok partitions =>
    let results := trainResults m.replicas partitions
    ({ m with
       base := bumpVersion (mergeResults m.base results),
       replicas := updateReplicas m.replicas results }, none)

/-- A manager of any of the three topologies. -/
inductive AnyManager where
  | localMgr (m : ManagerState)
  | mpMgr (m : MPManager)
  | mnMgr (m : MNManager)

def AnyManager.version : AnyManager → Nat
  | .localMgr m => m.version
  | .mpMgr m => m.base.version
  | .mnMgr m => m.base.version

/-- The operations a caller can perform on a manager after construction. -/
inductive MgrOp where
  | onExperiencesOp (batch : List (String × Nat))
  | getStateOp
  | resetUpdateStatusOp
  | exitOp

/-- Applying one caller operation to a manager of any topology. `get_state`
reads without mutating; `exit` only signals the workers. -/
def AnyManager.applyOp : AnyManager → MgrOp → AnyManager
  | .localMgr m, .onExperiencesOp b => .localMgr (localOnExperiences m b).1
  | .mpMgr m, .onExperiencesOp b => .mpMgr (mpOnExperiences m b).1
  | .mnMgr m, .onExperiencesOp b => .mnMgr (mnOnExperiences m b).1
  | .localMgr m, .resetUpdateStatusOp => .localMgr (resetUpdateStatus m)
  | .mpMgr m, .resetUpdateStatusOp => .mpMgr { m with base := resetUpdateStatus m.base }
  | .mnMgr m, .resetUpdateStatusOp => .mnMgr { m with base := resetUpdateStatus m.base }
  | m, .getStateOp => m
  | m, .exitOp => m

def AnyManager.applyOps (m : AnyManager) (ops : List MgrOp) : AnyManager :=
  ops.foldl AnyManager.applyOp m

/-! Concrete policies and managers used by the witnesses and counterexamples
below. Each manager value is shown (in the theorem using it) to be the result
of the corresponding constructor, so it is a reachable manager state. -/

/-- A policy named `a` whose update always reports a change. -/
def pInc : CorePolicy := ⟨"a", 0, fun s _ => (s + 1, true)⟩

/-- A policy named `b` whose update never reports a change. -/
def pNo : CorePolicy := ⟨"b", 0, fun s _ => (s, false)⟩

/-- A policy named `a` whose update never reports a change. -/
def pNoA : CorePolicy := ⟨"a", 9, fun s _ => (s, false)⟩

/-- The base state produced by constructing a manager over `pInc` alone. -/
def exLocal : ManagerState := { policy_dict := [("a", pInc)], updated := ["a"], version := 0 }

/-- The base state produced by constructing a manager over `pInc` and `pNo`. -/
def exBaseAB : ManagerState :=
  { policy_dict := [("a", pInc), ("b", pNo)], updated := ["a", "b"], version := 0 }

/-- The Multi-Process manager over `pInc`/`pNo` with one trainer per policy. -/
def exMP : MPManager :=
  { base := exBaseAB,
    trainer2policies := [("t0", ["a"]), ("t1", ["b"])],
    replicas := [("t0", [("a", pInc)]), ("t1", [("b", pNo)])],
    started := ["t0", "t1"] }

/-- The Multi-Node manager over `pInc` alone, one trainer. -/
def exMNsingle : MNManager :=
  { base := exLocal,
    policy2trainer := [("a", "t0")],
    trainer2policies := [("t0", ["a"])],
    replicas := [("t0", [("a", pInc)])] }

/-- The Multi-Node manager over the never-changing `pNoA` alone, one trainer. -/
def exMNnochange : MNManager :=
  { base := { policy_dict := [("a", pNoA)], updated := ["a"], version := 0 },
    policy2trainer := [("a", "t0")],
    trainer2policies := [("t0", ["a"])],
    replicas := [("t0", [("a", pNoA)])] }

/-- The Multi-Node manager over `pInc`/`pNo` with one trainer per policy. -/
def exMN : MNManager :=
  { base := exBaseAB,
    policy2trainer := [("a", "t0"), ("b", "t1")],
    trainer2policies := [("t0", ["a"]), ("t1", ["b"])],
    replicas := [("t0", [("a", pInc)]), ("t1", [("b", pNo)])] }

/-! Basic lemmas about the Python dict/set embedding. -/

theorem dictKeys_cons {α : Type} (kv : String × α) (d : List (String × α)) :
    dictKeys (kv :: d) = kv.1 :: dictKeys d := rfl

theorem dictGet?_dictSet {α : Type} (d : List (String × α)) (k k' : String) (v : α) :
    dictGet? (dictSet d k v) k' = if k' = k then some v else dictGet? d k' := by
  induction d with
  | nil =>
    simp only [dictSet, dictGet?]
    by_cases h : k' = k
    · rw [if_pos h.symm, if_pos h]
    · rw [if_neg (fun e => h e.symm), if_neg h]
  | cons kv rest ih =>
    by_cases hk : kv.1 = k
    · simp only [dictSet, if_pos hk, dictGet?]
      by_cases h : k' = k
      · rw [if_pos h.symm, if_pos h]
      · rw [if_neg (fun e => h e.symm), if_neg h,
          if_neg (show ¬ (kv.1 = k') by rw [hk]; exact fun e => h e.symm)]
    · simp only [dictSet, if_neg hk, dictGet?]
      by_cases h2 : kv.1 = k'
      · rw [if_pos h2, if_neg (fun e : k' = k => hk (h2.trans e)), if_pos h2]
      · rw [if_neg h2, ih]
        by_cases h : k' = k
        · rw [if_pos h, if_pos h]
        · rw [if_neg h, if_neg h, if_neg h2]

theorem dictSet_ne_nil {α : Type} (d : List (String × α)) (k : String) (v : α) :
    dictSet d k v ≠ [] := by
  cases d with
  | nil => simp [dictSet]
  | cons kv rest =>
    by_cases h : kv.1 = k <;> simp [dictSet, h]

theorem mem_dictSet {α : Type} {d : List (String × α)} {k : String} {v : α} {kv : String × α}
    (h : kv ∈ dictSet d k v) : kv ∈ d ∨ kv = (k, v) := by
  induction d with
  | nil => simp [dictSet] at h; right; exact h
  | cons hd rest ih =>
    by_cases hk : hd.1 = k
    · simp [dictSet, hk] at h
      rcases h with h | h
      · right; exact h
      · left; exact List.mem_cons_of_mem _ h
    · simp [dictSet, hk] at h
      rcases h with h | h
      · left; simp [h]
      · rcases ih h with h' | h'
        · left; exact List.mem_cons_of_mem _ h'
        · right; exact h'

theorem dictGet?_mem {α : Type} {d : List (String × α)} {k : String} {v : α}
    (h : dictGet? d k = some v) : (k, v) ∈ d := by
  induction d with
  | nil => simp [dictGet?] at h
  | cons hd rest ih =>
    by_cases hk : hd.1 = k
    · simp [dictGet?, hk] at h
      have he : (k, v) = hd := by rw [← hk, ← h]
      rw [he]
      exact List.mem_cons_self _ _
    · simp [dictGet?, hk] at h
      exact List.mem_cons_of_mem _ (ih h)

theorem dictKeys_dictSet {α : Type} (d : List (String × α)) (k : String) (v : α) :
    dictKeys (dictSet d k v) =
      if k ∈ dictKeys d then dictKeys d else dictKeys d ++ [k] := by
  induction d with
  | nil => simp [dictSet, dictKeys]
  | cons kv rest ih =>
    by_cases hk : kv.1 = k
    · simp only [dictSet, if_pos hk, dictKeys_cons]
      rw [if_pos (List.mem_cons.mpr (Or.inl hk.symm)), hk]
    · have hkkv : ¬ (k = kv.1) := fun e => hk e.symm
      simp only [dictSet, if_neg hk, dictKeys_cons, ih]
      by_cases hm : k ∈ dictKeys rest
      · rw [if_pos hm, if_pos (List.mem_cons_of_mem _ hm)]
      · rw [if_neg hm, if_neg (by simp [List.mem_cons, hkkv, hm]), List.cons_append]

theorem setAdd_ne_nil (s : List String) (x : String) : setAdd s x ≠ [] := by
  by_cases h : x ∈ s
  · simp [setAdd, h]
    intro hnil
    subst hnil
    simp at h
  · simp [setAdd, h]

/-! Lemmas about merging trainer replies into the coordinator state. -/

theorem mergeReply_version (reply : List (String × Nat)) (b : ManagerState) :
    (mergeReply b reply).version = b.version := by
  induction reply generalizing b with
  | nil => rfl
  | cons ns rest ih => simpa [mergeReply, List.foldl_cons, mergeEntry] using ih (mergeEntry b ns)

theorem mergeResults_version
    (results : List (String × (List (String × CorePolicy) × List (String × Nat))))
    (b : ManagerState) :
    (mergeResults b results).version = b.version := by
  induction results generalizing b with
  | nil => rfl
  | cons tr rest ih =>
    simpa [mergeResults, List.foldl_cons, mergeReply_version] using
      (ih (mergeReply b tr.2.2)).trans (mergeReply_version tr.2.2 b)

theorem mergeReply_updated_ne_nil_of (reply : List (String × Nat)) (b : ManagerState)
    (hb : b.updated ≠ []) : (mergeReply b reply).updated ≠ [] := by
  induction reply generalizing b with
  | nil => exact hb
  | cons ns rest ih =>
    exact ih (mergeEntry b ns) (by simpa [mergeEntry] using setAdd_ne_nil b.updated ns.1)

theorem mergeReply_updated_ne_nil (reply : List (String × Nat)) (b : ManagerState)
    (hr : reply ≠ []) : (mergeReply b reply).updated ≠ [] := by
  cases reply with
  | nil => exact absurd rfl hr
  | cons ns rest =>
    exact mergeReply_updated_ne_nil_of rest (mergeEntry b ns)
      (by simpa [mergeEntry] using setAdd_ne_nil b.updated ns.1)

theorem mergeResults_updated_ne_nil_of
    (results : List (String × (List (String × CorePolicy) × List (String × Nat))))
    (b : ManagerState) (hb : b.updated ≠ []) :
    (mergeResults b results).updated ≠ [] := by
  induction results generalizing b with
  | nil => exact hb
  | cons tr rest ih =>
    exact ih (mergeReply b tr.2.2) (mergeReply_updated_ne_nil_of tr.2.2 b hb)

theorem mergeResults_updated_ne_nil
    (results : List (String × (List (String × CorePolicy) × List (String × Nat))))
    (b : ManagerState)
    (h : ∃ tr ∈ results, tr.2.2 ≠ []) :
    (mergeResults b results).updated ≠ [] := by
  induction results generalizing b with
  | nil => rcases h with ⟨tr, htr, _⟩; simp at htr
  | cons hd rest ih =>
    rcases h with ⟨tr, htr, hne⟩
    rcases List.mem_cons.mp htr with h1 | h1
    · subst h1
      exact mergeResults_updated_ne_nil_of rest (mergeReply b tr.2.2)
        (mergeReply_updated_ne_nil tr.2.2 b hne)
    · exact ih (mergeReply b hd.2.2) ⟨tr, h1, hne⟩

theorem mergeResults_empty
    (results : List (String × (List (String × CorePolicy) × List (String × Nat))))
    (b : ManagerState)
    (h : ∀ tr ∈ results, tr.2.2 = []) :
    mergeResults b results = b := by
  induction results generalizing b with
  | nil => rfl
  | cons tr rest ih =>
    have htr : tr.2.2 = [] := h tr (List.mem_cons_self _ _)
    have hb : mergeReply b tr.2.2 = b := by simp [htr, mergeReply]
    simpa [mergeResults, List.foldl_cons, hb] using
      ih b (fun t ht => h t (List.mem_cons_of_mem _ ht))

theorem bumpVersion_version (b : ManagerState) :
    (bumpVersion b).version = if b.updated.isEmpty then b.version else b.version + 1 := by
  by_cases h : b.updated.isEmpty <;> simp [bumpVersion, h]

theorem bumpVersion_updated (b : ManagerState) : (bumpVersion b).updated = b.updated := by
  by_cases h : b.updated.isEmpty <;> simp [bumpVersion, h]

theorem bumpVersion_policy_dict (b : ManagerState) :
    (bumpVersion b).policy_dict = b.policy_dict := by
  by_cases h : b.updated.isEmpty <;> simp [bumpVersion, h]

/-- The Local manager's batch loop never touches `_version`. -/
theorem localOnExperiences_version (batch : List (String × Nat)) (m : ManagerState) :
    ((localOnExperiences m batch).1).version = m.version := by
  induction batch generalizing m with
  | nil => rfl
  | cons ne rest ih =>
    cases h : dictGet? m.policy_dict ne.1 with
    | none => simp [localOnExperiences, h]
    | some p => simpa [localOnExperiences, h] using ih _

/-! Construction lemmas. -/

/-- Inversion of `mkManager` on the success path. -/
theorem mkManager_eq_ok {policies : List Policy} {m : ManagerState}
    (h : mkManager policies = .ok m) :
    ∃ cores, coresOf policies = some cores ∧
      m = { policy_dict := cores.foldl (fun d p => dictSet d p.name p) [],
            updated := dictKeys (cores.foldl (fun d p => dictSet d p.name p) []),
            version := 0 } := by
  unfold mkManager at h
  cases hm : coresOf policies with
  | none => rw [hm] at h; cases h
  | some cores =>
    rw [hm] at h
    exact ⟨cores, rfl, (Except.ok.inj h).symm⟩

/-- Building the policy store never creates a duplicate key. -/
theorem foldl_dictSet_keys_nodup (cores : List CorePolicy) (d : List (String × CorePolicy))
    (h : (dictKeys d).Nodup) :
    (dictKeys (cores.foldl (fun d p => dictSet d p.name p) d)).Nodup := by
  induction cores generalizing d with
  | nil => exact h
  | cons p rest ih =>
    apply ih
    rw [dictKeys_dictSet]
    by_cases hm : p.name ∈ dictKeys d
    · rw [if_pos hm]; exact h
    · rw [if_neg hm]
      refine List.Nodup.append h (List.nodup_singleton _) ?_
      intro a ha hb
      rw [List.mem_singleton] at hb
      exact hm (hb ▸ ha)

/-- `getStates` only looks the given names up, so two stores agreeing on them
produce the same snapshot. -/
theorem getStates_congr (d d' : List (String × CorePolicy)) (names : List String)
    (h : ∀ n ∈ names, dictGet? d n = dictGet? d' n) :
    getStates d names = getStates d' names := by
  induction names with
  | nil => rfl
  | cons n rest ih =>
    have hn := h n (List.mem_cons_self _ _)
    simp only [getStates]
    rw [hn]
    cases hd : dictGet? d' n with
    | none => rfl
    | some p =>
      rw [ih (fun x hx => h x (List.mem_cons_of_mem _ hx))]

/-- The snapshot of a duplicate-free store at all of its keys. -/
theorem getStates_keys (d : List (String × CorePolicy)) (h : (dictKeys d).Nodup) :
    getStates d (dictKeys d) = .ok (d.map (fun kv => (kv.1, kv.2.state))) := by
  induction d with
  | nil => rfl
  | cons kv rest ih =>
    rw [dictKeys_cons] at h
    have hnotin : kv.1 ∉ dictKeys rest := (List.nodup_cons.mp h).1
    have hrest : (dictKeys rest).Nodup := (List.nodup_cons.mp h).2
    rw [dictKeys_cons]
    simp only [getStates]
    rw [show dictGet? (kv :: rest) kv.1 = some kv.2 from by simp [dictGet?]]
    rw [getStates_congr (kv :: rest) rest (dictKeys rest)
      (fun n hn => by
        simp only [dictGet?]
        rw [if_neg (fun e : kv.1 = n => hnotin (by rw [e]; exact hn))]),
      ih hrest]
    rfl

/-- C6: immediately after construction the `updated` set holds every managed
policy name, so `get_state()` right after construction returns a snapshot
whose domain is the whole store. -/
theorem construction_updated_equals_all_names (policies : List Policy) (m : ManagerState)
    (h : mkManager policies = .ok m) :
    m.updated = dictKeys m.policy_dict ∧
    getState m = .ok (m.policy_dict.map (fun kv => (kv.1, kv.2.state))) ∧
    ∃ st, getState m = .ok st ∧ st.map Prod.fst = dictKeys m.policy_dict := by
  obtain ⟨cores, _, rfl⟩ := mkManager_eq_ok h
  have hnodup := foldl_dictSet_keys_nodup cores [] (by simp [dictKeys])
  refine ⟨rfl, getStates_keys _ hnodup, ⟨_, getStates_keys _ hnodup, ?_⟩⟩
  simp [dictKeys]

theorem construction_updated_equals_all_names_witness :
    exLocal.updated = dictKeys exLocal.policy_dict ∧
    getState exLocal = .ok (exLocal.policy_dict.map (fun kv => (kv.1, kv.2.state))) ∧
    ∃ st, getState exLocal = .ok st ∧ st.map Prod.fst = dictKeys exLocal.policy_dict :=
  construction_updated_equals_all_names [.core pInc] exLocal rfl

/-- C8: `reset_update_status` clears `updated`, leaves `version` and the
policy store untouched, and a `get_state()` right after returns the empty
mapping. -/
theorem reset_update_status_clears_only_updated (m : ManagerState) :
    (resetUpdateStatus m).updated = [] ∧
    (resetUpdateStatus m).version = m.version ∧
    (resetUpdateStatus m).policy_dict = m.policy_dict ∧
    getState (resetUpdateStatus m) = .ok [] :=
  ⟨rfl, rfl, rfl, rfl⟩

/-- C10: construction with two same-named trainable policies succeeds, and
the store keeps only the later-supplied policy. -/
theorem duplicate_policy_names_later_wins (p q : CorePolicy) (h : p.name = q.name) :
    mkManager [.core p, .core q] =
      .ok { policy_dict := [(q.name, q)], updated := [q.name], version := 0 } := by
  unfold mkManager
  rw [show coresOf [Policy.core p, Policy.core q] = some [p, q] from rfl]
  simp [dictSet, dictKeys, h]

theorem duplicate_policy_names_later_wins_witness :
    mkManager [.core pInc, .core pNoA] =
      .ok { policy_dict := [(pNoA.name, pNoA)], updated := [pNoA.name], version := 0 } :=
  duplicate_policy_names_later_wins pInc pNoA rfl

/-! Version behaviour (C7). -/

theorem mpOnExperiences_version (m : MPManager) (batch : List (String × Nat)) :
    ((mpOnExperiences m batch).1).base.version = m.base.version ∨
    ((mpOnExperiences m batch).1).base.version = m.base.version + 1 := by
  cases hp : mpPartition m.trainer2policies batch with
  | error e => left; simp [mpOnExperiences, hp]
  | ok parts =>
    simp only [mpOnExperiences, hp]
    rw [bumpVersion_version, mergeResults_version]
    by_cases hu : (mergeResults m.base (trainResults m.replicas parts)).updated.isEmpty
    · left; rw [if_pos hu]
    · right; rw [if_neg hu]

theorem mnOnExperiences_version (m : MNManager) (batch : List (String × Nat)) :
    ((mnOnExperiences m batch).1).base.version = m.base.version ∨
    ((mnOnExperiences m batch).1).base.version = m.base.version + 1 := by
  cases hp : mnPartition m.policy2trainer batch with
  | error e => left; simp [mnOnExperiences, hp]
  | ok parts =>
    simp only [mnOnExperiences, hp]
    rw [bumpVersion_version, mergeResults_version]
    by_cases hu : (mergeResults m.base (trainResults m.replicas parts)).updated.isEmpty
    · left; rw [if_pos hu]
    · right; rw [if_neg hu]

/-- Every single caller operation leaves the version unchanged or increments
it by exactly 1. -/
theorem applyOp_version_step (m : AnyManager) (op : MgrOp) :
    (m.applyOp op).version = m.version ∨ (m.applyOp op).version = m.version + 1 := by
  cases m with
  | localMgr s =>
    cases op with
    | onExperiencesOp b => left; exact localOnExperiences_version b s
    | getStateOp => left; rfl
    | resetUpdateStatusOp => left; rfl
    | exitOp => left; rfl
  | mpMgr s =>
    cases op with
    | onExperiencesOp b => exact mpOnExperiences_version s b
    | getStateOp => left; rfl
    | resetUpdateStatusOp => left; rfl
    | exitOp => left; rfl
  | mnMgr s =>
    cases op with
    | onExperiencesOp b => exact mnOnExperiences_version s b
    | getStateOp => left; rfl
    | resetUpdateStatusOp => left; rfl
    | exitOp => left; rfl

/-- The version never decreases across any sequence of caller operations. -/
theorem applyOps_version_mono (ops : List MgrOp) (m : AnyManager) :
    m.version ≤ (m.applyOps ops).version := by
  induction ops generalizing m with
  | nil => exact le_refl _
  | cons op rest ih =>
    have h1 : m.version ≤ (m.applyOp op).version := by
      rcases applyOp_version_step m op with h | h <;> omega
    have h2 : (m.applyOp op).version ≤ ((m.applyOp op).applyOps rest).version := ih _
    have h3 : m.applyOps (op :: rest) = (m.applyOp op).applyOps rest := rfl
    rw [h3]
    exact le_trans h1 h2

/-- C7: the version starts at 0 at construction, every operation changes it by
0 or by exactly 1, and it never decreases over any operation sequence. -/
theorem version_starts_zero_and_monotone :
    (∀ (policies : List Policy) (m : ManagerState), mkManager policies = .ok m → m.version = 0) ∧
    (∀ (m : AnyManager) (op : MgrOp),
      (m.applyOp op).version = m.version ∨ (m.applyOp op).version = m.version + 1) ∧
    (∀ (m : AnyManager) (ops : List MgrOp), m.version ≤ (m.applyOps ops).version) :=
  ⟨fun _ _ h => by obtain ⟨cores, _, rfl⟩ := mkManager_eq_ok h; rfl,
   applyOp_version_step,
   fun m ops => applyOps_version_mono ops m⟩

theorem version_starts_zero_and_monotone_witness :
    exLocal.version = 0 ∧
    (AnyManager.mnMgr exMNsingle).version ≤
      ((AnyManager.mnMgr exMNsingle).applyOps
        [.onExperiencesOp [("a", 3)], .resetUpdateStatusOp, .getStateOp, .exitOp]).version :=
  ⟨version_starts_zero_and_monotone.1 [.core pInc] exLocal rfl,
   version_starts_zero_and_monotone.2.2 (AnyManager.mnMgr exMNsingle) _⟩

/-- C1 counterexample: on the Local manager a policy's update can report a
change (its flag is true, and its name lands in `updated`), yet the version
after the call is the version before, not before + 1: the Local topology
never increments the counter. -/
theorem local_version_not_incremented_on_change :
    mkManager [.core pInc] = .ok exLocal ∧
    (pInc.update pInc.state 0).2 = true ∧
    (localOnExperiences exLocal [("a", 0)]).2 = none ∧
    (localOnExperiences exLocal [("a", 0)]).1.updated = ["a"] ∧
    (localOnExperiences exLocal [("a", 0)]).1.version = exLocal.version ∧
    (localOnExperiences exLocal [("a", 0)]).1.version ≠ exLocal.version + 1 :=
  ⟨rfl, rfl, rfl, rfl, rfl, by decide⟩

/-- C1 (amended): in the Multi-Process and Multi-Node topologies, if at least
one policy's update reports a state change during an `on_experiences` call
that completes, the version increases by exactly 1 regardless of how many
policies changed; the Local manager never modifies the version at all. -/
theorem version_increment_on_change :
    (∀ (m : MPManager) (batch : List (String × Nat)) parts,
        mpPartition m.trainer2policies batch = .ok parts →
        (∃ tr ∈ trainResults m.replicas parts, tr.2.2 ≠ []) →
        ((mpOnExperiences m batch).1).base.version = m.base.version + 1) ∧
    (∀ (m : MNManager) (batch : List (String × Nat)) parts,
        mnPartition m.policy2trainer batch = .ok parts →
        (∃ tr ∈ trainResults m.replicas parts, tr.2.2 ≠ []) →
        ((mnOnExperiences m batch).1).base.version = m.base.version + 1) ∧
    (∀ (m : ManagerState) (batch : List (String × Nat)),
        ((localOnExperiences m batch).1).version = m.version) := by
  refine ⟨?_, ?_, fun m b => localOnExperiences_version b m⟩
  · intro m batch parts hp hch
    simp only [mpOnExperiences, hp]
    rw [bumpVersion_version, mergeResults_version,
      if_neg (by simpa using mergeResults_updated_ne_nil _ _ hch)]
  · intro m batch parts hp hch
    simp only [mnOnExperiences, hp]
    rw [bumpVersion_version, mergeResults_version,
      if_neg (by simpa using mergeResults_updated_ne_nil _ _ hch)]

theorem version_increment_on_change_witness :
    ((mnOnExperiences exMNsingle [("a", 2)]).1).base.version = exMNsingle.base.version + 1 :=
  version_increment_on_change.2.1 exMNsingle [("a", 2)] [("t0", [("a", 2)])] rfl
    ⟨("t0", trainerHandleTrain [("a", pInc)] [("a", 2)]), List.mem_singleton.mpr rfl, by decide⟩

/-- C3 counterexample: a freshly constructed Multi-Node manager, given the
empty batch, completes but increments the version from 0 to 1, because
`updated` is non-empty from construction. -/
theorem empty_batch_bumps_version :
    (mkMultiNodeManager [.core pInc] [("a", "t0")]).1 = .ok exMNsingle ∧
    (mnOnExperiences exMNsingle []).2 = none ∧
    (mnOnExperiences exMNsingle []).1.base.updated = exMNsingle.base.updated ∧
    (mnOnExperiences exMNsingle []).1.base.version = exMNsingle.base.version + 1 :=
  ⟨rfl, rfl, rfl, rfl⟩

/-- C3 (amended): on the empty batch the Local manager is a complete no-op;
the Multi-Node manager completes and leaves `updated` and the store
unchanged, but still increments the version whenever `updated` is non-empty
(it leaves the version unchanged only when `updated` is empty); the
Multi-Process manager raises a `KeyError` for the first policy owned by its
first trainer, since it indexes the empty batch with every owned policy id. -/
theorem empty_batch_behaviour :
    (∀ m : ManagerState, localOnExperiences m [] = (m, none)) ∧
    (∀ m : MNManager,
        (mnOnExperiences m []).2 = none ∧
        (mnOnExperiences m []).1.base.updated = m.base.updated ∧
        (mnOnExperiences m []).1.base.policy_dict = m.base.policy_dict ∧
        (mnOnExperiences m []).1.base.version =
          if m.base.updated.isEmpty then m.base.version else m.base.version + 1) ∧
    (∀ (m : MPManager) (tid n : String) (names : List String) rest,
        m.trainer2policies = (tid, n :: names) :: rest →
        mpOnExperiences m [] = (m, some (.keyError n))) := by
  refine ⟨fun m => rfl, ?_, ?_⟩
  · intro m
    exact ⟨rfl, bumpVersion_updated m.base, bumpVersion_policy_dict m.base,
      bumpVersion_version m.base⟩
  · intro m tid n names rest h
    have hp : mpPartition m.trainer2policies [] = .error (.keyError n) := by
      rw [h]
      simp [mpPartition, partitionFor, dictGet?]
    simp [mpOnExperiences, hp]

theorem empty_batch_behaviour_witness :
    localOnExperiences exLocal [] = (exLocal, none) ∧
    (mnOnExperiences exMNsingle []).2 = none ∧
    mpOnExperiences exMP [] = (exMP, some (.keyError "a")) :=
  ⟨empty_batch_behaviour.1 exLocal,
   (empty_batch_behaviour.2.1 exMNsingle).1,
   empty_batch_behaviour.2.2 exMP "t0" "a" [] [("t1", ["b"])] rfl⟩

/-- C4 counterexample: a freshly constructed Multi-Node manager over a policy
that never reports a change, given a batch for that policy, adds nothing to
`updated` — yet the version is incremented from 0 to 1, because `updated` is
non-empty from construction. -/
theorem version_bumps_despite_no_change :
    (mkMultiNodeManager [.core pNoA] [("a", "t0")]).1 = .ok exMNnochange ∧
    (pNoA.update pNoA.state 7).2 = false ∧
    (mnOnExperiences exMNnochange [("a", 7)]).2 = none ∧
    (mnOnExperiences exMNnochange [("a", 7)]).1.base.updated = exMNnochange.base.updated ∧
    (mnOnExperiences exMNnochange [("a", 7)]).1.base.version = exMNnochange.base.version + 1 :=
  ⟨rfl, rfl, rfl, rfl, rfl⟩

/-- A Local batch loop in which every looked-up policy reports no change
leaves `updated` untouched. -/
theorem localOnExperiences_no_change (batch : List (String × Nat)) (m : ManagerState)
    (h : ∀ ne ∈ batch, ∀ p, dictGet? m.policy_dict ne.1 = some p →
          ∀ s, (p.update s ne.2).2 = false) :
    ((localOnExperiences m batch).1).updated = m.updated := by
  induction batch generalizing m with
  | nil => rfl
  | cons ne rest ih =>
    cases hd : dictGet? m.policy_dict ne.1 with
    | none => simp [localOnExperiences, hd]
    | some p =>
      have hflag : (p.update p.state ne.2).2 = false :=
        h ne (List.mem_cons_self _ _) p hd p.state
      have hstep : ∀ ne' ∈ rest, ∀ p',
          dictGet? (dictSet m.policy_dict ne.1 { p with state := (p.update p.state ne.2).1 }) ne'.1
            = some p' → ∀ s, (p'.update s ne'.2).2 = false := by
        intro ne' hne' p' hp' s
        rw [dictGet?_dictSet] at hp'
        by_cases he : ne'.1 = ne.1
        · rw [if_pos he] at hp'
          have hpe : p' = { p with state := (p.update p.state ne.2).1 } :=
            (Option.some.inj hp').symm
          subst hpe
          exact h ne' (List.mem_cons_of_mem _ hne') p (by rw [he]; exact hd) s
        · rw [if_neg he] at hp'
          exact h ne' (List.mem_cons_of_mem _ hne') p' hp' s
      have hred : localOnExperiences m (ne :: rest) =
          localOnExperiences
            { m with
              policy_dict := dictSet m.policy_dict ne.1
                { p with state := (p.update p.state ne.2).1 },
              updated := m.updated } rest := by
        simp [localOnExperiences, hd, hflag]
      rw [hred]
      exact ih _ hstep

/-- C4 (amended): if every policy in the batch reports no internal change,
the call adds no names to `updated` in any topology; but in the Multi-Process
and Multi-Node topologies the version is nonetheless incremented whenever
`updated` is non-empty after the call — e.g. from construction or earlier
calls — rather than only when `updated` grew during the call. The Local
manager leaves the version untouched in all cases. -/
theorem no_change_updated_stays_version_bumps_if_nonempty :
    (∀ (m : MPManager) (batch : List (String × Nat)) parts,
        mpPartition m.trainer2policies batch = .ok parts →
        (∀ tr ∈ trainResults m.replicas parts, tr.2.2 = []) →
        ((mpOnExperiences m batch).1).base.updated = m.base.updated ∧
        ((mpOnExperiences m batch).1).base.version =
          (if m.base.updated.isEmpty then m.base.version else m.base.version + 1)) ∧
    (∀ (m : MNManager) (batch : List (String × Nat)) parts,
        mnPartition m.policy2trainer batch = .ok parts →
        (∀ tr ∈ trainResults m.replicas parts, tr.2.2 = []) →
        ((mnOnExperiences m batch).1).base.updated = m.base.updated ∧
        ((mnOnExperiences m batch).1).base.version =
          (if m.base.updated.isEmpty then m.base.version else m.base.version + 1)) ∧
    (∀ (m : ManagerState) (batch : List (String × Nat)),
        (∀ ne ∈ batch, ∀ p, dictGet? m.policy_dict ne.1 = some p →
          ∀ s, (p.update s ne.2).2 = false) →
        ((localOnExperiences m batch).1).updated = m.updated ∧
        ((localOnExperiences m batch).1).version = m.version) := by
  refine ⟨?_, ?_, fun m batch h =>
    ⟨localOnExperiences_no_change batch m h, localOnExperiences_version batch m⟩⟩
  · intro m batch parts hp hempty
    have hmr : mergeResults m.base (trainResults m.replicas parts) = m.base :=
      mergeResults_empty _ _ hempty
    simp only [mpOnExperiences, hp]
    rw [hmr]
    exact ⟨bumpVersion_updated m.base, bumpVersion_version m.base⟩
  · intro m batch parts hp hempty
    have hmr : mergeResults m.base (trainResults m.replicas parts) = m.base :=
      mergeResults_empty _ _ hempty
    simp only [mnOnExperiences, hp]
    rw [hmr]
    exact ⟨bumpVersion_updated m.base, bumpVersion_version m.base⟩

theorem no_change_updated_stays_version_bumps_if_nonempty_witness :
    ((mnOnExperiences exMNnochange [("a", 7)]).1).base.updated = exMNnochange.base.updated ∧
    ((mnOnExperiences exMNnochange [("a", 7)]).1).base.version =
      (if exMNnochange.base.updated.isEmpty
        then exMNnochange.base.version else exMNnochange.base.version + 1) :=
  no_change_updated_stays_version_bumps_if_nonempty.2.1 exMNnochange [("a", 7)]
    [("t0", [("a", 7)])] rfl
    (fun tr htr => by
      rcases List.mem_singleton.mp htr with h
      rw [h]
      decide)

/-! Error behaviour on unmanaged batch keys (C5). -/

/-- The Local batch loop raises a `KeyError` when the batch holds a key
absent from the policy store. -/
theorem localOnExperiences_unknown_key (batch : List (String × Nat)) (m : ManagerState)
    (h : ∃ ne ∈ batch, dictGet? m.policy_dict ne.1 = none) :
    ∃ k, (localOnExperiences m batch).2 = some (.keyError k) := by
  induction batch generalizing m with
  | nil => rcases h with ⟨ne, hne, _⟩; simp at hne
  | cons ne rest ih =>
    cases hd : dictGet? m.policy_dict ne.1 with
    | none => exact ⟨ne.1, by simp [localOnExperiences, hd]⟩
    | some p =>
      rcases h with ⟨ne', hne', hnone⟩
      rcases List.mem_cons.mp hne' with h1 | h1
      · subst h1; rw [hd] at hnone; cases hnone
      · have hnone' : dictGet?
            (dictSet m.policy_dict ne.1 { p with state := (p.update p.state ne.2).1 }) ne'.1
            = none := by
          rw [dictGet?_dictSet]
          by_cases he : ne'.1 = ne.1
          · rw [he, hd] at hnone; cases hnone
          · rw [if_neg he]; exact hnone
        simpa only [localOnExperiences, hd] using ih _ ⟨ne', h1, hnone'⟩

/-- The Multi-Node partition loop raises a `KeyError` when the batch holds a
key absent from the assignment table. -/
theorem mnPartitionAux_unknown_key (p2t : List (String × String)) :
    ∀ (l : List (String × Nat)) (acc : List (String × List (String × Nat))),
    (∃ ne ∈ l, dictGet? p2t ne.1 = none) →
    ∃ k, mnPartitionAux p2t l acc = .error (.keyError k) := by
  intro l
  induction l with
  | nil => intro acc h; rcases h with ⟨ne, hne, _⟩; simp at hne
  | cons ne rest ih =>
    intro acc h
    cases hd : dictGet? p2t ne.1 with
    | none => exact ⟨ne.1, by simp [mnPartitionAux, hd]⟩
    | some tid =>
      rcases h with ⟨ne', hne', hnone⟩
      rcases List.mem_cons.mp hne' with h1 | h1
      · subst h1; rw [hd] at hnone; cases hnone
      · simpa only [mnPartitionAux, hd] using ih _ ⟨ne', h1, hnone⟩

/-- A trainer's partition builds when all of its owned policies are present
in the batch. -/
theorem partitionFor_ok (batch : List (String × Nat)) (names : List String)
    (h : ∀ n ∈ names, (dictGet? batch n).isSome) :
    ∃ part, partitionFor batch names = .ok part := by
  induction names with
  | nil => exact ⟨[], rfl⟩
  | cons n rest ih =>
    have hs := h n (List.mem_cons_self _ _)
    cases hd : dictGet? batch n with
    | none => rw [hd] at hs; cases hs
    | some e =>
      obtain ⟨part, hp⟩ := ih (fun x hx => h x (List.mem_cons_of_mem _ hx))
      exact ⟨(n, e) :: part, by simp [partitionFor, hd, hp, Except.map]⟩

/-- The Multi-Process send loop builds all partitions when every owned policy
of every trainer is present in the batch (extra batch keys are never read). -/
theorem mpPartition_ok (t2p : List (String × List String)) (batch : List (String × Nat))
    (h : ∀ tp ∈ t2p, ∀ n ∈ tp.2, (dictGet? batch n).isSome) :
    ∃ parts, mpPartition t2p batch = .ok parts := by
  induction t2p with
  | nil => exact ⟨[], rfl⟩
  | cons tp rest ih =>
    obtain ⟨part, hp⟩ := partitionFor_ok batch tp.2 (h tp (List.mem_cons_self _ _))
    obtain ⟨parts, hps⟩ := ih (fun t ht => h t (List.mem_cons_of_mem _ ht))
    exact ⟨(tp.1, part) :: parts, by simp [mpPartition, hp, hps, Except.map]⟩

/-- C5 counterexample: a batch key that is not a managed policy id makes the
Local manager raise a `KeyError` — not a `ConfigurationError` — and the
Multi-Node manager likewise; the Multi-Process manager does not fail at all
when its owned policies are present, silently ignoring the unknown key. -/
theorem unknown_key_keyerror_not_configurationerror :
    (localOnExperiences exLocal [("zzz", 0)]).2 = some (.keyError "zzz") ∧
    (mnOnExperiences exMNsingle [("zzz", 0)]).2 = some (.keyError "zzz") ∧
    (mpOnExperiences exMP [("a", 1), ("b", 2), ("zzz", 3)]).2 = none ∧
    (some (PyError.keyError "zzz") ≠ some PyError.configurationError) :=
  ⟨rfl, rfl, rfl, by decide⟩

/-- C5 (amended): a batch containing a key that is not a managed policy id
makes the Local and Multi-Node managers fail with a `KeyError` (never a
`ConfigurationError`); the Multi-Process manager never inspects unknown batch
keys — it completes without error whenever every owned policy of every
trainer is present in the batch, regardless of extra unknown keys. -/
theorem unknown_batch_key_behaviour :
    (∀ (m : ManagerState) (batch : List (String × Nat)),
        (∃ ne ∈ batch, dictGet? m.policy_dict ne.1 = none) →
        ∃ k, (localOnExperiences m batch).2 = some (.keyError k)) ∧
    (∀ (m : MNManager) (batch : List (String × Nat)),
        (∃ ne ∈ batch, dictGet? m.policy2trainer ne.1 = none) →
        ∃ k, (mnOnExperiences m batch).2 = some (.keyError k)) ∧
    (∀ (m : MPManager) (batch : List (String × Nat)),
        (∀ tp ∈ m.trainer2policies, ∀ n ∈ tp.2, (dictGet? batch n).isSome) →
        (mpOnExperiences m batch).2 = none) := by
  refine ⟨fun m batch => localOnExperiences_unknown_key batch m, ?_, ?_⟩
  · intro m batch h
    obtain ⟨k, hk⟩ := mnPartitionAux_unknown_key m.policy2trainer batch [] h
    exact ⟨k, by simp [mnOnExperiences, mnPartition, hk]⟩
  · intro m batch h
    obtain ⟨parts, hp⟩ := mpPartition_ok m.trainer2policies batch h
    simp [mpOnExperiences, hp]

theorem unknown_batch_key_behaviour_witness :
    (∃ k, (localOnExperiences exLocal [("zzz", 1)]).2 = some (.keyError k)) ∧
    (∃ k, (mnOnExperiences exMNsingle [("zzz", 1)]).2 = some (.keyError k)) ∧
    (mpOnExperiences exMP [("a", 1), ("b", 2), ("qqq", 3)]).2 = none :=
  ⟨unknown_batch_key_behaviour.1 exLocal [("zzz", 1)] ⟨("zzz", 1), List.mem_singleton.mpr rfl, rfl⟩,
   unknown_batch_key_behaviour.2.1 exMNsingle [("zzz", 1)]
     ⟨("zzz", 1), List.mem_singleton.mpr rfl, rfl⟩,
   unknown_batch_key_behaviour.2.2 exMP [("a", 1), ("b", 2), ("qqq", 3)] (by decide)⟩

/-! Construction failure on a non-trainable policy (C9). -/

/-- A supplied non-core policy makes the validation pass fail. -/
theorem coresOf_eq_none (policies : List Policy)
    (h : ∃ p ∈ policies, p.isCore = false) :
    coresOf policies = none := by
  induction policies with
  | nil => rcases h with ⟨p, hp, _⟩; simp at hp
  | cons q rest ih =>
    rcases h with ⟨p, hp, hcore⟩
    rcases List.mem_cons.mp hp with h1 | h1
    · subst h1
      cases p with
      | core cp => simp [Policy.isCore, Policy.asCore] at hcore
      | nonCore n => simp [coresOf, Policy.asCore]
    · cases q with
      | core cp => simp [coresOf, Policy.asCore, ih ⟨p, h1, hcore⟩]
      | nonCore n => simp [coresOf, Policy.asCore]

/-- C9 counterexample: a non-trainable policy makes construction fail with a
`ValueError`, not the `ConfigurationError` the claim names (no such error
class is raised anywhere in the subsystem); the eager part of the claim does
hold — no process is started and no proxy is created. -/
theorem construction_noncore_valueerror :
    mkMultiProcessManager [.nonCore "x"] [] = (.error .valueError, []) ∧
    mkMultiNodeManager [.nonCore "x"] [] = (.error .valueError, false) ∧
    PyError.valueError ≠ PyError.configurationError :=
  ⟨rfl, rfl, by decide⟩

/-- C9 (amended): constructing any manager over a policy list containing a
non-trainable policy fails with a `ValueError` (not a `ConfigurationError`),
and the check runs before any trainer process is spawned or network proxy is
created: the failed Multi-Process construction starts no process and the
failed Multi-Node construction creates no proxy. -/
theorem construction_noncore_fails_eagerly (policies : List Policy)
    (h : ∃ p ∈ policies, p.isCore = false) :
    mkManager policies = .error .valueError ∧
    (∀ p2t, mkMultiProcessManager policies p2t = (.error .valueError, [])) ∧
    (∀ p2t, mkMultiNodeManager policies p2t = (.error .valueError, false)) := by
  have hm : mkManager policies = .error .valueError := by
    unfold mkManager
    rw [coresOf_eq_none policies h]
  exact ⟨hm,
    fun p2t => by unfold mkMultiProcessManager; rw [hm],
    fun p2t => by unfold mkMultiNodeManager; rw [hm]⟩

theorem construction_noncore_fails_eagerly_witness :
    mkManager [.core pInc, .nonCore "x"] = .error .valueError ∧
    mkMultiProcessManager [.core pInc, .nonCore "x"] [("a", "t0")] = (.error .valueError, []) ∧
    mkMultiNodeManager [.core pInc, .nonCore "x"] [("a", "t0")] = (.error .valueError, false) := by
  obtain ⟨h1, h2, h3⟩ :=
    construction_noncore_fails_eagerly [.core pInc, .nonCore "x"]
      ⟨.nonCore "x", by simp, rfl⟩
  exact ⟨h1, h2 [("a", "t0")], h3 [("a", "t0")]⟩

/-! Partitioning behaviour (C2). -/

/-- A value successfully looked up is an entry of the dict. -/
theorem getD_mem_of_dictGet? {α : Type} {acc : List (String × α)} {tid : String}
    {inner : α} (h : dictGet? acc tid = some inner) : (tid, inner) ∈ acc :=
  dictGet?_mem h

/-- Invariant of the Multi-Node grouping loop: every accumulated partition is
non-empty and holds only entries whose key satisfies `K` and whose policy is
assigned to that partition's trainer. -/
theorem mnPartitionAux_props (p2t : List (String × String)) (K : String → Prop) :
    ∀ (l : List (String × Nat)) (acc parts : List (String × List (String × Nat))),
    (∀ tp ∈ acc, tp.2 ≠ [] ∧ ∀ ne ∈ tp.2, K ne.1 ∧ dictGet? p2t ne.1 = some tp.1) →
    (∀ ne ∈ l, K ne.1) →
    mnPartitionAux p2t l acc = .ok parts →
    ∀ tp ∈ parts, tp.2 ≠ [] ∧ ∀ ne ∈ tp.2, K ne.1 ∧ dictGet? p2t ne.1 = some tp.1 := by
  intro l
  induction l with
  | nil =>
    intro acc parts hacc _ h
    exact (Except.ok.inj h) ▸ hacc
  | cons ne rest ih =>
    intro acc parts hacc hl h
    cases hd : dictGet? p2t ne.1 with
    | none => rw [mnPartitionAux, hd] at h; cases h
    | some tid =>
      rw [mnPartitionAux, hd] at h
      refine ih _ parts ?_ (fun x hx => hl x (List.mem_cons_of_mem _ hx)) h
      intro tp htp
      rcases mem_dictSet htp with hold | heq
      · exact hacc tp hold
      · subst heq
        refine ⟨dictSet_ne_nil _ _ _, ?_⟩
        intro ne' hne'
        rcases mem_dictSet hne' with hin | heq2
        · cases hai : dictGet? acc tid with
          | none => rw [hai] at hin; simp at hin
          | some inner =>
            rw [hai] at hin
            exact (hacc (tid, inner) (getD_mem_of_dictGet? hai)).2 ne' hin
        · subst heq2
          exact ⟨hl ne (List.mem_cons_self _ _), hd⟩

/-- The Multi-Process send loop addresses exactly the trainers of the
assignment table, in order. -/
theorem mpPartition_dests (t2p : List (String × List String)) (batch : List (String × Nat)) :
    ∀ parts, mpPartition t2p batch = .ok parts →
    parts.map Prod.fst = t2p.map Prod.fst := by
  induction t2p with
  | nil =>
    intro parts h
    rw [← Except.ok.inj h]
    rfl
  | cons tp rest ih =>
    intro parts h
    rw [mpPartition] at h
    cases hp : partitionFor batch tp.2 with
    | error e => rw [hp] at h; cases h
    | ok part =>
      rw [hp] at h
      cases hps : mpPartition rest batch with
      | error e => rw [hps] at h; cases h
      | ok parts' =>
        rw [hps] at h
        have hinj : (tp.1, part) :: parts' = parts := Except.ok.inj h
        rw [← hinj, List.map_cons, ih parts' hps]
        rfl

/-- C2 counterexample: a reachable Multi-Process manager whose trainer `t1`
owns only policy `b`, given a batch containing only `a`: instead of omitting
`b` and never contacting `t1`, the call raises `KeyError` for `b` (the send
loop indexes the batch with every owned policy of every trainer). -/
theorem mp_partition_requires_all_owned :
    mkMultiProcessManager [.core pInc, .core pNo] [("a", "t0"), ("b", "t1")] =
      (.ok exMP, ["t0", "t1"]) ∧
    mpOnExperiences exMP [("a", 5)] = (exMP, some (.keyError "b")) :=
  ⟨rfl, rfl⟩

/-- C2 (amended): the Multi-Node topology partitions as claimed — every
scattered partition is non-empty, holds only policies present in the batch
and owned by that trainer, and a trainer with no batched policy receives
nothing. The Multi-Process topology instead prepares a `TRAIN` payload for
every trainer regardless of the batch, and a policy owned by a trainer but
absent from the batch raises a `KeyError` rather than being omitted. -/
theorem train_partitioning :
    (∀ (p2t : List (String × String)) (batch : List (String × Nat)) parts,
        mnPartition p2t batch = .ok parts →
        ∀ tp ∈ parts, tp.2 ≠ [] ∧
          ∀ ne ∈ tp.2, ne.1 ∈ batch.map Prod.fst ∧ dictGet? p2t ne.1 = some tp.1) ∧
    (∀ (p2t : List (String × String)) (batch : List (String × Nat)) parts,
        mnPartition p2t batch = .ok parts →
        ∀ tp ∈ parts, ∃ n, n ∈ batch.map Prod.fst ∧ dictGet? p2t n = some tp.1) ∧
    (∀ (t2p : List (String × List String)) (batch : List (String × Nat)) parts,
        mpPartition t2p batch = .ok parts →
        parts.map Prod.fst = t2p.map Prod.fst) := by
  have hmain : ∀ (p2t : List (String × String)) (batch : List (String × Nat)) parts,
      mnPartition p2t batch = .ok parts →
      ∀ tp ∈ parts, tp.2 ≠ [] ∧
        ∀ ne ∈ tp.2, ne.1 ∈ batch.map Prod.fst ∧ dictGet? p2t ne.1 = some tp.1 := by
    intro p2t batch parts h
    exact mnPartitionAux_props p2t (fun n => n ∈ batch.map Prod.fst) batch [] parts
      (by simp) (fun ne hne => List.mem_map_of_mem Prod.fst hne) h
  refine ⟨hmain, ?_, fun t2p batch parts h => mpPartition_dests t2p batch parts h⟩
  intro p2t batch parts h tp htp
  obtain ⟨hne, hall⟩ := hmain p2t batch parts h tp htp
  cases he : tp.2 with
  | nil => exact absurd he hne
  | cons ne0 rest0 =>
    obtain ⟨hK, hassign⟩ := hall ne0 (by rw [he]; exact List.mem_cons_self _ _)
    exact ⟨ne0.1, hK, hassign⟩

theorem train_partitioning_witness :
    ("t0", [("a", (5 : Nat))]).2 ≠ [] ∧
    (("a", (5 : Nat)).1 ∈ [("a", (5 : Nat))].map Prod.fst ∧
      dictGet? [("a", "t0"), ("b", "t1")] ("a", (5 : Nat)).1 = some "t0") := by
  have h := train_partitioning.1 [("a", "t0"), ("b", "t1")] [("a", 5)] [("t0", [("a", 5)])] rfl
    ("t0", [("a", 5)]) (List.mem_singleton.mpr rfl)
  exact ⟨h.1, h.2 ("a", 5) (List.mem_singleton.mpr rfl)⟩

end Maro
